import Mathlib

/-!
Shallow embedding of `src/CustomerJourneyOptimizer/journey/segment_journey_predictor.py`
(class `SegmentJourneyPredictor`), together with theorems settling the frozen
claims about it.

Modelling conventions:
* A pandas `DataFrame` row with columns `customer_id`, `timestamp`, `segment`
  and the (initially absent) `encoded_segment` column is a `Row`; a `DataFrame`
  is a `List Row`.  An absent `encoded_segment` value is `none`.
* Floating-point probabilities are modelled as `Option ℚ`: `some q` is the
  (exact) real value, `none` is IEEE NaN.  The only NaN source in this code is
  the row normalization `matrix / row_sums[:, None]`, where a zero-count row is
  divided by its zero sum: in numpy `0.0 / 0.0` is NaN, so the whole row
  becomes NaN.  All other arithmetic on observed values stays exact, so
  rationals are a faithful carrier.  `pyAdd`/`pyMul` propagate NaN as IEEE
  addition/multiplication do; `pyLtP`/`pyLeP` are false whenever either
  operand is NaN, as IEEE comparisons are.
* `sklearn.LabelEncoder.fit` stores `classes_ = np.unique(y)`: the sorted,
  deduplicated labels.  `transform([s])[0]` is the index of `s` in `classes_`
  (raising on an unseen label), `inverse_transform([j])[0]` is `classes_[j]`.
* Python exceptions are an `Except JErr` result.  `JErr.notFitted` is the
  `ValueError("Model has not been fitted...")` raised by the class itself;
  `JErr.unknownSegment` is the `ValueError` sklearn raises from `transform`
  on a label missing from `classes_`.
* `pandas.sort_values('timestamp')` is modelled by a stable insertion sort on
  the timestamp; the source uses the pandas default (quicksort), so on tied
  timestamps the source order is algorithm-defined — the claims under proof
  do not depend on the tie order.
* `numpy.argmax` over a float row scans left to right keeping the running
  maximum, treating NaN as maximal and stopping at the first NaN; hence it
  returns the first NaN index if one exists, else the first index attaining
  the maximum.  `npArgmax` reproduces this.
-/

namespace CJO

/-- IEEE float value: `some q` a real, `none` NaN. -/
abbrev FloatQ := Option ℚ

/-- One record of the journey log (one DataFrame row). -/
structure Row where
  customer_id : String
  timestamp : Int
  segment : String
  encoded_segment : Option Nat
deriving DecidableEq

abbrev DataFrame := List Row

/-- Errors surfaced by the predictor (Python `ValueError`s, distinguished by
origin: the class's own not-fitted guard vs sklearn's unseen-label check). -/
inductive JErr where
  | notFitted
  | unknownSegment
deriving DecidableEq

/-- Index of a label in a class list (sklearn `LabelEncoder.transform` on the
sorted unique `classes_`; `none` models the unseen-label `ValueError`). -/
def idxOfStr (s : String) : List String → Option Nat
  | [] => none
  | c :: rest => if c = s then some 0 else (idxOfStr s rest).map (· + 1)

/-- Remove duplicates keeping first occurrences, the elements already kept
accumulating in `seen`. -/
def dedupFSAux {α : Type} [DecidableEq α] (seen : List α) : List α → List α
  | [] => []
  | x :: xs =>
    if x ∈ seen then dedupFSAux seen xs
    else x :: dedupFSAux (x :: seen) xs

/-- Distinct values in first-occurrence order (`pandas.Series.unique`; also
the deduplication half of `np.unique`, whose output order is fixed by the
sort that follows). -/
def dedupFS {α : Type} [DecidableEq α] (l : List α) : List α := dedupFSAux [] l

/-- Lexicographic comparison of character lists by code point — the order
`String.lt` (and numpy's string sort) uses, written out so it computes. -/
def charListLe : List Char → List Char → Bool
  | [], _ => true
  | _ :: _, [] => false
  | a :: as, b :: bs =>
    if a.toNat < b.toNat then true
    else if b.toNat < a.toNat then false
    else charListLe as bs

/-- String order by code points (the order `np.unique` sorts labels in). -/
def strLeB (a b : String) : Bool := charListLe a.data b.data

/-- Insert a string into an ascending-sorted list (helper for `sortStr`). -/
def insertStrLe (x : String) : List String → List String
  | [] => [x]
  | y :: ys => if strLeB x y then x :: y :: ys else y :: insertStrLe x ys

/-- Ascending insertion sort on strings. -/
def sortStr (l : List String) : List String := l.foldr insertStrLe []

/-- `LabelEncoder.fit`: `classes_ = np.unique(labels)` — sorted distinct labels. -/
def labelClasses (labels : List String) : List String := sortStr (dedupFS labels)

/-- Insert a row into a list ascending by timestamp, keeping earlier-inserted
rows first on ties (stable). -/
def insertTs (r : Row) : List Row → List Row
  | [] => [r]
  | y :: ys => if r.timestamp ≤ y.timestamp then r :: y :: ys else y :: insertTs r ys

/-- Stable sort of rows by timestamp (`DataFrame.sort_values('timestamp')`). -/
def sortTs (l : List Row) : List Row := l.foldr insertTs []

/-- Apply `f` to the element at position `k` (no-op when out of range). -/
def modifyAt {α : Type} (f : α → α) : Nat → List α → List α
  | _, [] => []
  | 0, x :: xs => f x :: xs
  | n + 1, x :: xs => x :: modifyAt f n xs

/-- The `n × n` zero count matrix (`np.zeros((n_segments, n_segments))`). -/
def zeroMatrix (n : Nat) : List (List ℚ) := List.replicate n (List.replicate n (0 : ℚ))

/-- Entry read of a rational matrix. -/
def entryAt (M : List (List ℚ)) (i j : Nat) : ℚ := (M.getD i []).getD j 0

/-- `matrix[a, b] += 1`. -/
def incr (M : List (List ℚ)) (a b : Nat) : List (List ℚ) :=
  modifyAt (modifyAt (· + 1) b) a M

/-- Adjacent pairs of a sequence, the first component held in `a`. -/
def adjPairsAux (a : Nat) : List Nat → List (Nat × Nat)
  | [] => []
  | b :: rest => (a, b) :: adjPairsAux b rest

/-- Adjacent index pairs `(l[i], l[i+1])` of a sequence — the pairs the inner
`for i in range(len(customer_journey) - 1)` loop of `fit` visits. -/
def adjPairs : List Nat → List (Nat × Nat)
  | [] => []
  | a :: rest => adjPairsAux a rest

/-- Walk a customer's encoded journey, incrementing one count per adjacent
pair (the inner loop of `fit`). -/
def addTransitions (M : List (List ℚ)) (l : List Nat) : List (List ℚ) :=
  (adjPairs l).foldl (fun Mc ab => incr Mc ab.1 ab.2) M

/-- The timestamp-sorted encoded journey of the rows of customer `c` inside
`df` (the columns the inner loop reads at `iloc[i]` / `iloc[i+1]`). -/
def encJourney (df : DataFrame) (c : String) : List Nat :=
  (sortTs (df.filter (fun r => r.customer_id == c))).map (fun r => r.encoded_segment.getD 0)

/-- The transition count matrix: the double loop of `fit`, iterating customers
in first-seen order and adding each customer's adjacent-pair transitions. -/
def fitCounts (df : DataFrame) (n : Nat) : List (List ℚ) :=
  (dedupFS (df.map (·.customer_id))).foldl
    (fun M c => addTransitions M (encJourney df c)) (zeroMatrix n)

/-- IEEE addition on modelled floats: NaN propagates. -/
def pyAdd : FloatQ → FloatQ → FloatQ
  | some a, some b => some (a + b)
  | _, _ => none

/-- IEEE multiplication on modelled floats: NaN propagates (all values finite
here, so no `0 * inf` subtleties). -/
def pyMul : FloatQ → FloatQ → FloatQ
  | some a, some b => some (a * b)
  | _, _ => none

/-- IEEE `<` on modelled floats: any comparison against NaN is false. -/
def pyLtP : FloatQ → FloatQ → Prop
  | some a, some b => a < b
  | _, _ => False

instance : (x y : FloatQ) → Decidable (pyLtP x y)
  | some a, some b => inferInstanceAs (Decidable (a < b))
  | some _, none => isFalse (fun h => h)
  | none, some _ => isFalse (fun h => h)
  | none, none => isFalse (fun h => h)

/-- IEEE `<=` on modelled floats: any comparison against NaN is false. -/
def pyLeP : FloatQ → FloatQ → Prop
  | some a, some b => a ≤ b
  | _, _ => False

instance : (x y : FloatQ) → Decidable (pyLeP x y)
  | some a, some b => inferInstanceAs (Decidable (a ≤ b))
  | some _, none => isFalse (fun h => h)
  | none, some _ => isFalse (fun h => h)
  | none, none => isFalse (fun h => h)

/-- Float sum of a row of modelled floats (`row.sum()`). -/
def rowSumF (row : List FloatQ) : FloatQ := row.foldl pyAdd (some 0)

/-- Normalize one count row by its sum (`matrix / row_sums[:, None]`): a row
with zero sum has every entry `0.0 / 0.0 = NaN`. -/
def normalizeRow (row : List ℚ) : List FloatQ :=
  row.map (fun x => if row.sum = 0 then none else some (x / row.sum))

/-- The fitted predictor state: `transition_matrix` (`none` before `fit`, as
the Python attribute is `None`) and `segments` (`encoder.classes_`). -/
structure SegmentJourneyPredictor where
  transition_matrix : Option (List (List FloatQ))
  segments : List String
deriving DecidableEq

/-- A freshly constructed predictor (`__init__`). -/
def initPredictor : SegmentJourneyPredictor := ⟨none, []⟩

/-- `fit(journey_data)`: encodes the segment column in place (the mutated
caller DataFrame is returned as the second component), derives the
vocabulary, counts per-customer adjacent transitions and normalizes each row
by its sum. -/
def SegmentJourneyPredictor.fit (df : DataFrame) :
    SegmentJourneyPredictor × DataFrame :=
  let classes := labelClasses (df.map (·.segment))
  let df2 := df.map (fun r => { r with encoded_segment := idxOfStr r.segment classes })
  let counts := fitCounts df2 classes.length
  (⟨some (counts.map normalizeRow), classes⟩, df2)

/-- Helper for `npArgmax`: remaining row, running maximum (`none` = NaN),
index of the running maximum, index of the next element. -/
def npArgmaxAux : List FloatQ → FloatQ → Nat → Nat → Nat
  | [], _, best, _ => best
  | _ :: _, none, best, _ => best
  | x :: xs, some c, best, pos =>
    match x with
    | none => pos
    | some v =>
      if c < v then npArgmaxAux xs (some v) pos (pos + 1)
      else npArgmaxAux xs (some c) best (pos + 1)

/-- `np.argmax` on a float row: first NaN index if any, else the first index
attaining the maximum.  (numpy raises on an empty row; that case is
unreachable here because a successful `transform` implies a nonempty
vocabulary, so the `0` returned for `[]` is never consulted.) -/
def npArgmax : List FloatQ → Nat
  | [] => 0
  | x :: xs => npArgmaxAux xs x 0 1

/-- `predict_next_segment(current_segment)`. -/
def SegmentJourneyPredictor.predict_next_segment
    (m : SegmentJourneyPredictor) (current_segment : String) : Except JErr String :=
  match m.transition_matrix with
  | none => .error .notFitted
  | some M =>
    match idxOfStr current_segment m.segments with
    | none => .error .unknownSegment
    | some i => .ok (m.segments.getD (npArgmax (M.getD i [])) "")

/-- The `for _ in range(n_steps)` loop of `predict_journey`: returns the list
of predicted segments appended after the start. -/
def predictLoop (m : SegmentJourneyPredictor) : Nat → String → Except JErr (List String)
  | 0, _ => .ok []
  | n + 1, cur =>
    match m.predict_next_segment cur with
    | .error e => .error e
    | .ok nxt =>
      match predictLoop m n nxt with
      | .error e => .error e
      | .ok rest => .ok (nxt :: rest)

/-- `predict_journey(start_segment, n_steps)`. -/
def SegmentJourneyPredictor.predict_journey
    (m : SegmentJourneyPredictor) (start_segment : String) (n_steps : Nat) :
    Except JErr (List String) :=
  match m.transition_matrix with
  | none => .error .notFitted
  | some _ =>
    match predictLoop m n_steps start_segment with
    | .error e => .error e
    | .ok rest => .ok (start_segment :: rest)

/-- `segment_transition_probabilities(segment)`. -/
def SegmentJourneyPredictor.segment_transition_probabilities
    (m : SegmentJourneyPredictor) (segment : String) :
    Except JErr (List (String × FloatQ)) :=
  match m.transition_matrix with
  | none => .error .notFitted
  | some M =>
    match idxOfStr segment m.segments with
    | none => .error .unknownSegment
    | some i => .ok (m.segments.zip (M.getD i []))

/-- `enumerate(row)` starting at index `k`. -/
def enumList : List FloatQ → Nat → List (Nat × FloatQ)
  | [], _ => []
  | x :: xs, k => (k, x) :: enumList xs (k + 1)

/-- Python list slice `l[:k]`: for `k < 0` it keeps `len(l) + k` elements
(clamped at zero). -/
def pySliceTo {α : Type} (l : List α) (k : Int) : List α :=
  if 0 ≤ k then l.take k.toNat else l.take ((l.length : Int) + k).toNat

/-- A partial beam path: the index sequence and its accumulated probability. -/
abbrev IdxPath := List Nat × FloatQ

/-- One insertion step of the descending stable sort used to model
`sorted(new_paths, key=lambda x: x[1], reverse=True)`: `x` passes `y` only
when `y`'s key is strictly below `x`'s (tied or NaN-incomparable keys keep
their original relative order, as CPython's stable sort does). -/
def insertDesc (x : IdxPath) : List IdxPath → List IdxPath
  | [] => [x]
  | y :: ys => if pyLtP x.2 y.2 then y :: insertDesc x ys else x :: y :: ys

/-- Stable descending sort of paths by probability. -/
def sortDesc (l : List IdxPath) : List IdxPath := l.foldr insertDesc []

/-- Expand one partial path by every possible next segment
(`for next_segment, trans_prob in enumerate(self.transition_matrix[current])`). -/
def expandOne (M : List (List FloatQ)) (pp : IdxPath) : List IdxPath :=
  (enumList (M.getD (pp.1.getLast?.getD 0) []) 0).map
    (fun jt => (pp.1 ++ [jt.1], pyMul pp.2 jt.2))

/-- One iteration of the beam loop: expand every held path, sort all
candidates by probability descending, keep the slice `[:top_k]`. -/
def beamStep (M : List (List FloatQ)) (top_k : Int) (ps : List IdxPath) : List IdxPath :=
  pySliceTo (sortDesc (ps.flatMap (expandOne M))) top_k

/-- `most_likely_paths(start_segment, n_steps, top_k)`: note the source
validates neither `n_steps` nor `top_k`; `range(n_steps)` of a negative value
is empty and `[:top_k]` follows Python slice semantics. -/
def SegmentJourneyPredictor.most_likely_paths
    (m : SegmentJourneyPredictor) (start_segment : String) (n_steps top_k : Int) :
    Except JErr (List (List String × FloatQ)) :=
  match m.transition_matrix with
  | none => .error .notFitted
  | some M =>
    match idxOfStr start_segment m.segments with
    | none => .error .unknownSegment
    | some i =>
      let final := (List.range n_steps.toNat).foldl
        (fun ps _ => beamStep M top_k ps) [([i], some 1)]
      .ok (final.map (fun pp => (pp.1.map (fun j => m.segments.getD j ""), pp.2)))

/-- Number of adjacent occurrences of the pair `(i, j)` in a sequence. -/
def adjPairCount (l : List Nat) (i j : Nat) : Nat :=
  (adjPairs l).countP (fun ab => ab.1 == i && ab.2 == j)

/-- Probability entry `matrix[a][b]` of the normalized matrix. -/
def lookupProb (M : List (List FloatQ)) (a b : Nat) : FloatQ :=
  (M.getD a []).getD b none

/-- Joint probability of a path: left-to-right product of the
transition-matrix entries along its consecutive edges starting from `1.0`,
exactly as the beam loop accumulates `prob * trans_prob`. -/
def pathProbOpt (M : List (List FloatQ)) (p : List Nat) : FloatQ :=
  (adjPairs p).foldl (fun acc ab => pyMul acc (lookupProb M ab.1 ab.2)) (some 1)

/-- A probability list is non-increasing when every adjacent pair compares
`later <= earlier` under IEEE semantics (so a NaN anywhere inside a list of
two or more elements defeats the property). -/
def probsSortedDesc (l : List FloatQ) : Prop :=
  List.Chain' (fun a b => pyLeP b a) l

/-- Row sum within `1e-9` of `1.0` (false for a NaN sum). -/
def rowNearOne (row : List FloatQ) : Prop :=
  match rowSumF row with
  | some q => |q - 1| ≤ 1 / 1000000000
  | none => False

/-- Every entry of the row is exactly zero. -/
def rowAllZero (row : List FloatQ) : Prop := ∀ x ∈ row, x = some 0

/-- The C1 invariant as stated: every row sums to 1.0 (±1e-9) or is entirely
zero. -/
def c1Invariant (M : List (List FloatQ)) : Prop :=
  ∀ row ∈ M, rowNearOne row ∨ rowAllZero row

/-- Journey log A→B for one customer: segment B is observed with no outbound
transition, so its count row is all-zero. -/
def dfAB : DataFrame :=
  [⟨"c1", 0, "A", none⟩, ⟨"c1", 1, "B", none⟩]

/-- Journey log A→B→A for one customer: both segments have outbound
transitions, so no zero-count row arises. -/
def dfABA : DataFrame :=
  [⟨"c1", 0, "A", none⟩, ⟨"c1", 1, "B", none⟩, ⟨"c1", 2, "A", none⟩]

/-- Journey log A→B→A→C for one customer: row A ties between columns B and C
at probability 1/2, and row C is all-zero before normalization. -/
def dfTie : DataFrame :=
  [⟨"c1", 0, "A", none⟩, ⟨"c1", 1, "B", none⟩, ⟨"c1", 2, "A", none⟩, ⟨"c1", 3, "C", none⟩]

/-- The empty journey log. -/
def emptyDf : DataFrame := []

/-- Shape predicate for the count matrix: `n` rows, each of width `n`. -/
def IsMatrix (n : Nat) (M : List (List ℚ)) : Prop :=
  M.length = n ∧ ∀ row ∈ M, row.length = n

/-- Invariant of the beam working set after `k` expansion rounds: every held
path is nonempty, has `k + 1` nodes, carries exactly the product of its edge
probabilities, and that product is a real number (no NaN). -/
def BeamInv (M : List (List FloatQ)) (k : Nat) (ps : List IdxPath) : Prop :=
  ∀ pp ∈ ps, pp.1 ≠ [] ∧ pp.1.length = k + 1 ∧ pp.2 = pathProbOpt M pp.1 ∧ pp.2 ≠ none

/-! ### Helper lemmas about label lookup -/

theorem idxOfStr_lt_length {s : String} :
    ∀ {l : List String} {i : Nat}, idxOfStr s l = some i → i < l.length := by
  intro l
  induction l with
  | nil => intro i h; simp [idxOfStr] at h
  | cons c rest ih =>
    intro i h
    simp only [idxOfStr] at h
    by_cases hc : c = s
    · rw [if_pos hc] at h
      cases h
      simp
    · rw [if_neg hc] at h
      obtain ⟨j, hj, hji⟩ := Option.map_eq_some'.mp h
      subst hji
      have := ih hj
      simp only [List.length_cons]
      omega

theorem idxOfStr_getD {s : String} :
    ∀ {l : List String} {i : Nat}, idxOfStr s l = some i → l.getD i "" = s := by
  intro l
  induction l with
  | nil => intro i h; simp [idxOfStr] at h
  | cons c rest ih =>
    intro i h
    simp only [idxOfStr] at h
    by_cases hc : c = s
    · rw [if_pos hc] at h
      cases h
      simpa using hc
    · rw [if_neg hc] at h
      obtain ⟨j, hj, hji⟩ := Option.map_eq_some'.mp h
      subst hji
      simpa using ih hj

theorem idxOfStr_isSome_of_mem {s : String} :
    ∀ {l : List String}, s ∈ l → ∃ i, idxOfStr s l = some i := by
  intro l
  induction l with
  | nil => intro h; simp at h
  | cons c rest ih =>
    intro h
    by_cases hc : c = s
    · exact ⟨0, by simp [idxOfStr, hc]⟩
    · rcases List.mem_cons.mp h with h' | h'
      · exact absurd h'.symm hc
      · obtain ⟨j, hj⟩ := ih h'
        exact ⟨j + 1, by simp [idxOfStr, hc, hj]⟩

/-! ### Helper lemmas about row normalization (C1) -/

theorem foldl_pyAdd_some (l : List ℚ) :
    ∀ a : ℚ, (l.map (fun x => (some x : FloatQ))).foldl pyAdd (some a) = some (a + l.sum) := by
  induction l with
  | nil => intro a; simp
  | cons x t ih =>
    intro a
    simp only [List.map_cons, List.foldl_cons, pyAdd, List.sum_cons]
    rw [ih (a + x)]
    ring_nf

theorem sum_map_div (l : List ℚ) (s : ℚ) :
    (l.map (fun x => x / s)).sum = l.sum / s := by
  induction l with
  | nil => simp
  | cons a t ih => simp [ih, add_div]

theorem rowSumF_normalizeRow (r : List ℚ) (hs : r.sum ≠ 0) :
    rowSumF (normalizeRow r) = some 1 := by
  have h1 : normalizeRow r = (r.map (fun x => x / r.sum)).map (fun x => (some x : FloatQ)) := by
    simp [normalizeRow, hs, List.map_map, Function.comp_def]
  rw [h1, rowSumF, foldl_pyAdd_some, sum_map_div, div_self hs]
  norm_num

theorem normalizeRow_allNone (r : List ℚ) (hs : r.sum = 0) :
    ∀ x ∈ normalizeRow r, x = none := by
  simp [normalizeRow, hs]

/-- C1 — counterexample.  Fitting the one-customer log A→B gives segment B an
all-zero count row (second conjunct); the source then divides that row by its
zero sum, so the fitted matrix's B-row is `[NaN, NaN]` rather than the
all-zero row the claim promises, and the stated invariant (each row sums to
1.0 ± 1e-9 or is entirely zero) is violated (third conjunct). -/
theorem c1_counterexample :
    (SegmentJourneyPredictor.fit dfAB).1.transition_matrix
        = some [[some 0, some 1], [none, none]] ∧
      fitCounts (SegmentJourneyPredictor.fit dfAB).2 2 = [[0, 1], [0, 0]] ∧
      ¬ c1Invariant [[some 0, some 1], [none, none]] := by
  refine ⟨?_, ?_, ?_⟩
  · norm_num [SegmentJourneyPredictor.fit, fitCounts, dedupFS, dedupFSAux, encJourney, sortTs,
      insertTs, addTransitions, adjPairs, adjPairsAux, incr, modifyAt, zeroMatrix, labelClasses,
      sortStr, insertStrLe, idxOfStr, dfAB, List.replicate, normalizeRow]
  · norm_num [SegmentJourneyPredictor.fit, fitCounts, dedupFS, dedupFSAux, encJourney, sortTs,
      insertTs, addTransitions, adjPairs, adjPairsAux, incr, modifyAt, zeroMatrix, labelClasses,
      sortStr, insertStrLe, idxOfStr, dfAB, List.replicate]
  · intro h
    rcases h [none, none] (by simp) with h1 | h2
    · simp [rowNearOne, rowSumF, pyAdd] at h1
    · exact absurd (h2 none (by simp)) (by simp)

/-- C1 — amended claim, proved: for every fitted model, every row of the
transition matrix either sums to exactly 1.0 or consists entirely of NaN
entries; a source segment with zero outbound counts is not left all-zero —
normalization is attempted on its row too, and dividing by the zero sum turns
every entry into NaN. -/
theorem c1_amended (df : DataFrame) (M : List (List FloatQ))
    (hM : (SegmentJourneyPredictor.fit df).1.transition_matrix = some M)
    (row : List FloatQ) (hrow : row ∈ M) :
    rowSumF row = some 1 ∨ ∀ x ∈ row, x = none := by
  have hM' : (fitCounts (SegmentJourneyPredictor.fit df).2
      (labelClasses (df.map (·.segment))).length).map normalizeRow = M := by
    simpa [SegmentJourneyPredictor.fit] using hM
  rw [← hM'] at hrow
  obtain ⟨r0, _, rfl⟩ := List.mem_map.mp hrow
  by_cases hs : r0.sum = 0
  · exact Or.inr (normalizeRow_allNone r0 hs)
  · exact Or.inl (rowSumF_normalizeRow r0 hs)

/-- C1 — witness instantiating `c1_amended` at the fitted A→B→A model and its
first row. -/
theorem c1_amended_witness :
    rowSumF [some 0, some 1] = some 1 ∨ ∀ x ∈ ([some 0, some 1] : List FloatQ), x = none :=
  c1_amended dfABA [[some 0, some 1], [some 1, some 0]]
    (by norm_num [SegmentJourneyPredictor.fit, fitCounts, dedupFS, dedupFSAux, encJourney,
      sortTs, insertTs, addTransitions, adjPairs, adjPairsAux, incr, modifyAt, zeroMatrix,
      labelClasses, sortStr, insertStrLe, idxOfStr, dfABA, List.replicate, normalizeRow])
    [some 0, some 1] (by simp)

/-- C2 — counterexample.  After fitting on the empty log the transition
matrix is an empty (0×0) array, not `None`, so the not-fitted guard does not
fire: `predict_next_segment` fails with the unknown-segment error (sklearn's
unseen-label `ValueError`), not the "model not fitted" error the claim
requires — and `predict_journey` with zero steps even succeeds. -/
theorem c2_counterexample :
    (SegmentJourneyPredictor.fit emptyDf).1.predict_next_segment "A"
        = .error .unknownSegment ∧
      (SegmentJourneyPredictor.fit emptyDf).1.predict_next_segment "A"
        ≠ .error .notFitted ∧
      (SegmentJourneyPredictor.fit emptyDf).1.predict_journey "A" 0 = .ok ["A"] := by
  refine ⟨rfl, ?_, rfl⟩
  intro h
  rw [show (SegmentJourneyPredictor.fit emptyDf).1.predict_next_segment "A"
    = .error .unknownSegment from rfl] at h
  simp at h

/-- C2 — amended claim, proved: fitting on the empty log does not fail and
yields an empty vocabulary and an empty (0×0) matrix stored as fitted state;
every subsequent `predict_next_segment`, `segment_transition_probabilities`
and `most_likely_paths` call fails, but with the unknown-segment error (the
0×0 matrix passes the `is None` fitted check), and `predict_journey` fails
the same way for one or more steps while returning `[start]` for zero steps. -/
theorem c2_amended :
    (SegmentJourneyPredictor.fit emptyDf).1.segments = [] ∧
    (SegmentJourneyPredictor.fit emptyDf).1.transition_matrix = some [] ∧
    ∀ (s : String) (n : Nat) (steps top_k : Int),
      (SegmentJourneyPredictor.fit emptyDf).1.predict_next_segment s
          = .error .unknownSegment ∧
      (SegmentJourneyPredictor.fit emptyDf).1.segment_transition_probabilities s
          = .error .unknownSegment ∧
      (SegmentJourneyPredictor.fit emptyDf).1.most_likely_paths s steps top_k
          = .error .unknownSegment ∧
      (1 ≤ n →
        (SegmentJourneyPredictor.fit emptyDf).1.predict_journey s n
          = .error .unknownSegment) ∧
      (SegmentJourneyPredictor.fit emptyDf).1.predict_journey s 0 = .ok [s] := by
  refine ⟨rfl, rfl, fun s n steps top_k => ⟨rfl, rfl, rfl, ?_, rfl⟩⟩
  intro hn
  match n, hn with
  | n + 1, _ => rfl

/-- C2 — witness instantiating `c2_amended` at a concrete segment and step
count. -/
theorem c2_amended_witness :
    (SegmentJourneyPredictor.fit emptyDf).1.predict_journey "A" 1
      = .error .unknownSegment :=
  (c2_amended.2.2 "A" 1 0 0).2.2.2.1 (by decide)

/-! ### Helper lemmas about the beam loop under degenerate arguments (C3) -/

theorem beamStep_topk_zero (M : List (List FloatQ)) (ps : List IdxPath) :
    beamStep M 0 ps = [] := by
  simp [beamStep, pySliceTo]

theorem foldl_beamStep_topk_zero (M : List (List FloatQ)) :
    ∀ (n : Nat) (ps : List IdxPath), 0 < n →
      (List.range n).foldl (fun ps _ => beamStep M 0 ps) ps = [] := by
  intro n
  induction n with
  | zero => intro ps h; omega
  | succ k _ =>
    intro ps _
    rw [List.range_succ, List.foldl_append]
    simp only [List.foldl_cons, List.foldl_nil]
    exact beamStep_topk_zero M _

/-- C3 — counterexample.  On a fitted model the beam search performs no
argument validation: `steps = -1` silently behaves like `steps = 0` (Python's
`range(-1)` is empty) and returns the single start path, and `top_k = 0` with
`steps = 1` silently returns an empty list — neither call fails with an
invalid-argument error. -/
theorem c3_counterexample :
    (SegmentJourneyPredictor.fit dfAB).1.most_likely_paths "A" (-1) 3
        = .ok [(["A"], some 1)] ∧
      (SegmentJourneyPredictor.fit dfAB).1.most_likely_paths "A" 1 0 = .ok [] :=
  ⟨rfl, rfl⟩

/-- C3 — amended claim, proved: for every fitted model and vocabulary start
segment, `most_likely_paths` never raises an invalid-argument error: it
returns a result for every `steps` and `top_k`; with `steps < 0` it returns
exactly the single start path with probability 1.0, and with `top_k = 0` and
`steps >= 1` it returns the empty list. -/
theorem c3_amended (m : SegmentJourneyPredictor) (M : List (List FloatQ))
    (hM : m.transition_matrix = some M) (s : String) (i : Nat)
    (hs : idxOfStr s m.segments = some i) (steps top_k : Int) :
    (∃ r, m.most_likely_paths s steps top_k = .ok r) ∧
    (steps < 0 → m.most_likely_paths s steps top_k = .ok [([s], some 1)]) ∧
    (top_k = 0 → 1 ≤ steps → m.most_likely_paths s steps top_k = .ok []) := by
  have hgd : m.segments.getD i "" = s := idxOfStr_getD hs
  refine ⟨?_, ?_, ?_⟩
  · exact ⟨((List.range steps.toNat).foldl (fun ps _ => beamStep M top_k ps)
        [([i], some 1)]).map (fun pp => (pp.1.map (fun j => m.segments.getD j ""), pp.2)),
      by simp only [SegmentJourneyPredictor.most_likely_paths, hM, hs]⟩
  · intro hneg
    have h0 : steps.toNat = 0 := Int.toNat_of_nonpos (le_of_lt hneg)
    simp [SegmentJourneyPredictor.most_likely_paths, hM, hs, h0, hgd]
    exact List.getD_eq_getElem?_getD _ _ _ ▸ hgd
  · intro htk hst
    subst htk
    have h1 : 0 < steps.toNat := by omega
    simp only [SegmentJourneyPredictor.most_likely_paths, hM, hs]
    rw [foldl_beamStep_topk_zero M _ _ h1]
    simp

/-- C3 — witness instantiating `c3_amended` on the fitted A→B model with
negative steps. -/
theorem c3_amended_witness :
    (SegmentJourneyPredictor.fit dfAB).1.most_likely_paths "A" (-2) 7
      = .ok [(["A"], some 1)] :=
  (c3_amended (SegmentJourneyPredictor.fit dfAB).1 [[some 0, some 1], [none, none]]
    (by norm_num [SegmentJourneyPredictor.fit, fitCounts, dedupFS, dedupFSAux, encJourney,
      sortTs, insertTs, addTransitions, adjPairs, adjPairsAux, incr, modifyAt, zeroMatrix,
      labelClasses, sortStr, insertStrLe, idxOfStr, dfAB, List.replicate, normalizeRow])
    "A" 0 rfl (-2) 7).2.1 (by decide)

/-- C4 — counterexample.  On a model fitted with vocabulary `{A, B}`, the
label "C" is outside the vocabulary, yet `predict_journey("C", steps=0)`
returns `["C"]` without any error: the greedy rollout never looks up its
start segment when zero steps are requested, contradicting the claim for
`steps = 0`. -/
theorem c4_counterexample :
    idxOfStr "C" (SegmentJourneyPredictor.fit dfAB).1.segments = none ∧
      (SegmentJourneyPredictor.fit dfAB).1.predict_journey "C" 0 = .ok ["C"] :=
  ⟨rfl, rfl⟩

/-- C4 — amended claim, proved: on a fitted model, a segment outside the
vocabulary makes `predict_next_segment`, `most_likely_paths` (for every
`steps`/`top_k`) and `segment_transition_probabilities` fail with the
unknown-segment error, and makes `predict_journey` fail the same way for
`steps >= 1`; but `predict_journey` with `steps = 0` returns `[start]`
without validating the start segment. -/
theorem c4_amended (m : SegmentJourneyPredictor) (M : List (List FloatQ))
    (hM : m.transition_matrix = some M) (s : String)
    (hs : idxOfStr s m.segments = none) :
    m.predict_next_segment s = .error .unknownSegment ∧
    (∀ steps top_k : Int, m.most_likely_paths s steps top_k = .error .unknownSegment) ∧
    m.segment_transition_probabilities s = .error .unknownSegment ∧
    (∀ n : Nat, 1 ≤ n → m.predict_journey s n = .error .unknownSegment) ∧
    m.predict_journey s 0 = .ok [s] := by
  refine ⟨?_, ?_, ?_, ?_, ?_⟩
  · simp [SegmentJourneyPredictor.predict_next_segment, hM, hs]
  · intro steps top_k
    simp [SegmentJourneyPredictor.most_likely_paths, hM, hs]
  · simp [SegmentJourneyPredictor.segment_transition_probabilities, hM, hs]
  · intro n hn
    match n, hn with
    | n + 1, _ =>
      simp [SegmentJourneyPredictor.predict_journey, hM, predictLoop,
        SegmentJourneyPredictor.predict_next_segment, hs]
  · simp [SegmentJourneyPredictor.predict_journey, hM, predictLoop]

/-- C4 — witness instantiating `c4_amended` with the unknown label "C" on the
fitted A→B model. -/
theorem c4_amended_witness :
    (SegmentJourneyPredictor.fit dfAB).1.predict_next_segment "C"
      = .error .unknownSegment :=
  (c4_amended (SegmentJourneyPredictor.fit dfAB).1 [[some 0, some 1], [none, none]]
    (by norm_num [SegmentJourneyPredictor.fit, fitCounts, dedupFS, dedupFSAux, encJourney,
      sortTs, insertTs, addTransitions, adjPairs, adjPairsAux, incr, modifyAt, zeroMatrix,
      labelClasses, sortStr, insertStrLe, idxOfStr, dfAB, List.replicate, normalizeRow])
    "C" rfl).1

/-! ### Membership helper lemmas about the vocabulary construction -/

theorem mem_dedupFSAux {α : Type} [DecidableEq α] {a : α} :
    ∀ (seen l : List α), a ∈ l → a ∈ seen ∨ a ∈ dedupFSAux seen l := by
  intro seen l
  induction l generalizing seen with
  | nil => intro h; simp at h
  | cons x xs ih =>
    intro h
    by_cases hx : x ∈ seen
    · rcases List.mem_cons.mp h with rfl | h'
      · exact Or.inl hx
      · simpa [dedupFSAux, hx] using ih seen h'
    · rcases List.mem_cons.mp h with rfl | h'
      · simp [dedupFSAux, hx]
      · rcases ih (x :: seen) h' with hs | hd
        · rcases List.mem_cons.mp hs with rfl | hs'
          · simp [dedupFSAux, hx]
          · exact Or.inl hs'
        · simp [dedupFSAux, hx, hd]

theorem mem_dedupFS {α : Type} [DecidableEq α] {a : α} {l : List α}
    (h : a ∈ l) : a ∈ dedupFS l := by
  rcases mem_dedupFSAux [] l h with hs | hd
  · simp at hs
  · exact hd

theorem mem_insertStrLe {a x : String} :
    ∀ (ys : List String), a ∈ insertStrLe x ys ↔ a = x ∨ a ∈ ys := by
  intro ys
  induction ys with
  | nil => simp [insertStrLe]
  | cons y ys ih =>
    by_cases hc : strLeB x y
    · simp [insertStrLe, hc]
    · simp only [insertStrLe, hc, Bool.false_eq_true, if_false, List.mem_cons, ih]
      tauto

theorem mem_sortStr {a : String} : ∀ {l : List String}, a ∈ l → a ∈ sortStr l := by
  intro l
  induction l with
  | nil => intro h; simp at h
  | cons x xs ih =>
    intro h
    rcases List.mem_cons.mp h with rfl | h'
    · exact (mem_insertStrLe _).mpr (Or.inl rfl)
    · exact (mem_insertStrLe _).mpr (Or.inr (ih h'))

theorem mem_labelClasses {a : String} {l : List String} (h : a ∈ l) :
    a ∈ labelClasses l :=
  mem_sortStr (mem_dedupFS h)

/-- C6 — confirmed.  `fit` rewrites the caller's DataFrame: after the call the
frame equals the input with the `encoded_segment` column assigned on every
row (every row carries `some` encoding), so an input whose rows lack the
column is not left unchanged. -/
theorem c6_fit_mutates_frame (df : DataFrame) :
    (SegmentJourneyPredictor.fit df).2
        = df.map (fun r =>
            { r with encoded_segment :=
                idxOfStr r.segment (labelClasses (df.map (·.segment))) }) ∧
    (∀ r ∈ (SegmentJourneyPredictor.fit df).2, ∃ k, r.encoded_segment = some k) ∧
    ((∃ r ∈ df, r.encoded_segment = none) → (SegmentJourneyPredictor.fit df).2 ≠ df) := by
  have hsome : ∀ r ∈ (SegmentJourneyPredictor.fit df).2, ∃ k, r.encoded_segment = some k := by
    intro r hr
    obtain ⟨r0, hr0, rfl⟩ := List.mem_map.mp hr
    have hmem : r0.segment ∈ labelClasses (df.map (·.segment)) :=
      mem_labelClasses (List.mem_map.mpr ⟨r0, hr0, rfl⟩)
    exact idxOfStr_isSome_of_mem hmem
  refine ⟨rfl, hsome, ?_⟩
  rintro ⟨r, hr, hnone⟩ heq
  have hr' : r ∈ (SegmentJourneyPredictor.fit df).2 := by rw [heq]; exact hr
  obtain ⟨k, hk⟩ := hsome r hr'
  rw [hnone] at hk
  cases hk

/-- C6 — witness: on the concrete log `dfAB`, whose rows carry no
`encoded_segment`, fitting changes the frame. -/
theorem c6_fit_mutates_frame_witness :
    (SegmentJourneyPredictor.fit dfAB).2 ≠ dfAB :=
  (c6_fit_mutates_frame dfAB).2.2 ⟨⟨"c1", 0, "A", none⟩, by simp [dfAB], rfl⟩

/-- C8 — confirmed.  On a fitted model, the beam search with zero steps
returns exactly one path — the start segment alone — with probability 1.0,
for every beam width. -/
theorem c8_beam_zero_steps (m : SegmentJourneyPredictor) (M : List (List FloatQ))
    (hM : m.transition_matrix = some M) (s : String) (i : Nat)
    (hs : idxOfStr s m.segments = some i) (top_k : Int) (_htk : 1 ≤ top_k) :
    m.most_likely_paths s 0 top_k = .ok [([s], some 1)] := by
  have hgd := idxOfStr_getD hs
  simp [SegmentJourneyPredictor.most_likely_paths, hM, hs]
  exact List.getD_eq_getElem?_getD _ _ _ ▸ hgd

/-- C8 — witness on the fitted A→B model, start "A", beam width 3. -/
theorem c8_beam_zero_steps_witness :
    (SegmentJourneyPredictor.fit dfAB).1.most_likely_paths "A" 0 3
      = .ok [(["A"], some 1)] :=
  c8_beam_zero_steps (SegmentJourneyPredictor.fit dfAB).1 [[some 0, some 1], [none, none]]
    (by norm_num [SegmentJourneyPredictor.fit, fitCounts, dedupFS, dedupFSAux, encJourney,
      sortTs, insertTs, addTransitions, adjPairs, adjPairsAux, incr, modifyAt, zeroMatrix,
      labelClasses, sortStr, insertStrLe, idxOfStr, dfAB, List.replicate, normalizeRow])
    "A" 0 rfl 3 (by decide)

/-! ### Helper lemmas about `npArgmax` (C9, C10) -/

theorem npArgmaxAux_bound :
    ∀ (xs : List FloatQ) (c : FloatQ) (best pos : Nat),
      npArgmaxAux xs c best pos = best ∨
        ∃ u, u < xs.length ∧ npArgmaxAux xs c best pos = pos + u := by
  intro xs
  induction xs with
  | nil =>
    intro c best pos
    left
    cases c <;> rfl
  | cons x xs ih =>
    intro c best pos
    match c with
    | none => left; rfl
    | some cv =>
      match x with
      | none =>
        right
        exact ⟨0, by simp, by simp [npArgmaxAux]⟩
      | some v =>
        by_cases hlt : cv < v
        · rcases ih (some v) pos (pos + 1) with h | ⟨u, hu, h⟩
          · right
            refine ⟨0, by simp, ?_⟩
            simp [npArgmaxAux, hlt, h]
          · right
            refine ⟨u + 1, by simp [Nat.succ_lt_succ_iff, hu], ?_⟩
            rw [show npArgmaxAux (some v :: xs) (some cv) best pos
              = npArgmaxAux xs (some v) pos (pos + 1) from by simp [npArgmaxAux, hlt], h]
            omega
        · rcases ih (some cv) best (pos + 1) with h | ⟨u, hu, h⟩
          · left
            simpa [npArgmaxAux, hlt] using h
          · right
            refine ⟨u + 1, by simp [Nat.succ_lt_succ_iff, hu], ?_⟩
            rw [show npArgmaxAux (some v :: xs) (some cv) best pos
              = npArgmaxAux xs (some cv) best (pos + 1) from by simp [npArgmaxAux, hlt], h]
            omega

theorem npArgmax_lt (row : List FloatQ) (h : row ≠ []) :
    npArgmax row < row.length := by
  match row with
  | x :: xs =>
    rcases npArgmaxAux_bound xs x 0 1 with h1 | ⟨u, hu, h1⟩
    · simp [npArgmax, h1]
    · simp only [npArgmax, h1, List.length_cons]
      omega

theorem getD_mem_of_lt {α : Type} (l : List α) (i : Nat) (d : α) (h : i < l.length) :
    l.getD i d ∈ l := by
  rw [List.getD_eq_getElem?_getD, List.getElem?_eq_getElem h]
  simp only [Option.getD_some]
  exact List.getElem_mem h

theorem getD_eq_nil_of_le {α : Type} (l : List α) (i : Nat) (d : α)
    (h : l.length ≤ i) : l.getD i d = d := by
  rw [List.getD_eq_getElem?_getD, List.getElem?_eq_none h]
  rfl

/-! ### C9: the greedy rollout is total on vocabulary inputs -/

theorem predict_next_mem (m : SegmentJourneyPredictor) (M : List (List FloatQ))
    (hM : m.transition_matrix = some M)
    (hrows : ∀ row ∈ M, row.length = m.segments.length)
    (cur : String) (hcur : cur ∈ m.segments) :
    ∃ nxt, m.predict_next_segment cur = .ok nxt ∧ nxt ∈ m.segments := by
  obtain ⟨i, hi⟩ := idxOfStr_isSome_of_mem hcur
  have hlen0 : 0 < m.segments.length := List.length_pos.mpr (by
    intro hemp
    rw [hemp] at hcur
    simp at hcur)
  have hargj : npArgmax (M.getD i []) < m.segments.length := by
    by_cases hiM : i < M.length
    · have hrow : M.getD i [] ∈ M := getD_mem_of_lt M i [] hiM
      have hlen : (M.getD i []).length = m.segments.length := hrows _ hrow
      have hne : M.getD i [] ≠ [] := by
        intro hx
        rw [hx] at hlen
        simp at hlen
        omega
      have := npArgmax_lt (M.getD i []) hne
      omega
    · rw [getD_eq_nil_of_le M i [] (by omega)]
      simpa [npArgmax] using hlen0
  refine ⟨m.segments.getD (npArgmax (M.getD i [])) "", ?_, ?_⟩
  · simp [SegmentJourneyPredictor.predict_next_segment, hM, hi]
  · exact getD_mem_of_lt _ _ _ hargj

theorem predictLoop_ok (m : SegmentJourneyPredictor) (M : List (List FloatQ))
    (hM : m.transition_matrix = some M)
    (hrows : ∀ row ∈ M, row.length = m.segments.length) :
    ∀ (n : Nat) (cur : String), cur ∈ m.segments →
      ∃ l, predictLoop m n cur = .ok l ∧ l.length = n := by
  intro n
  induction n with
  | zero => intro cur _; exact ⟨[], rfl, rfl⟩
  | succ k ih =>
    intro cur hc
    obtain ⟨nxt, hnx, hmem⟩ := predict_next_mem m M hM hrows cur hc
    obtain ⟨l, hl, hlen⟩ := ih nxt hmem
    exact ⟨nxt :: l, by simp [predictLoop, hnx, hl], by simp [hlen]⟩

/-- C9 — confirmed.  On a fitted model whose matrix rows match the vocabulary
size, `predict_journey(s, 0)` returns exactly `[s]`, and for every number of
steps the returned sequence has length `steps + 1` and begins with `s`. -/
theorem c9_predict_path (m : SegmentJourneyPredictor) (M : List (List FloatQ))
    (hM : m.transition_matrix = some M)
    (hrows : ∀ row ∈ M, row.length = m.segments.length)
    (s : String) (hs : s ∈ m.segments) (n : Nat) :
    m.predict_journey s 0 = .ok [s] ∧
    ∃ l, m.predict_journey s n = .ok l ∧ l.length = n + 1 ∧ l.head? = some s := by
  constructor
  · simp [SegmentJourneyPredictor.predict_journey, hM, predictLoop]
  · obtain ⟨l, hl, hlen⟩ := predictLoop_ok m M hM hrows n s hs
    exact ⟨s :: l, by simp [SegmentJourneyPredictor.predict_journey, hM, hl],
      by simp [hlen], rfl⟩

/-- C9 — witness on the fitted A→B model, start "A", two steps. -/
theorem c9_predict_path_witness :
    (SegmentJourneyPredictor.fit dfAB).1.predict_journey "A" 0 = .ok ["A"] ∧
    ∃ l, (SegmentJourneyPredictor.fit dfAB).1.predict_journey "A" 2 = .ok l ∧
      l.length = 3 ∧ l.head? = some "A" :=
  c9_predict_path (SegmentJourneyPredictor.fit dfAB).1 [[some 0, some 1], [none, none]]
    (by norm_num [SegmentJourneyPredictor.fit, fitCounts, dedupFS, dedupFSAux, encJourney,
      sortTs, insertTs, addTransitions, adjPairs, adjPairsAux, incr, modifyAt, zeroMatrix,
      labelClasses, sortStr, insertStrLe, idxOfStr, dfAB, List.replicate, normalizeRow])
    (by
      have hseg : (SegmentJourneyPredictor.fit dfAB).1.segments = ["A", "B"] := rfl
      intro row hrow
      rw [hseg]
      rcases List.mem_cons.mp hrow with rfl | h
      · rfl
      · rcases List.mem_cons.mp h with rfl | h'
        · rfl
        · exact absurd h' (List.not_mem_nil _))
    "A" (by decide) 2

/-! ### C10: `np.argmax` returns the first index attaining the maximum -/

theorem npArgmaxAux_max (xs : List ℚ) :
    ∀ (c : ℚ) (best pos : Nat),
      (npArgmaxAux (xs.map (fun q => some q)) (some c) best pos = best ∧
        ∀ k < xs.length, xs.getD k 0 ≤ c) ∨
      (∃ u, u < xs.length ∧
        npArgmaxAux (xs.map (fun q => some q)) (some c) best pos = pos + u ∧
        c < xs.getD u 0 ∧
        (∀ k < xs.length, xs.getD k 0 ≤ xs.getD u 0) ∧
        (∀ k < u, xs.getD k 0 < xs.getD u 0)) := by
  induction xs with
  | nil =>
    intro c best pos
    left
    exact ⟨rfl, by simp⟩
  | cons x xs ih =>
    intro c best pos
    by_cases hlt : c < x
    · rcases ih x pos (pos + 1) with ⟨h, hmax⟩ | ⟨u, hu, h, hcu, hmax, hfirst⟩
      · right
        refine ⟨0, by simp, ?_, by simpa using hlt, ?_, by intro k hk; omega⟩
        · rw [show npArgmaxAux ((x :: xs).map (fun q => some q)) (some c) best pos
            = npArgmaxAux (xs.map (fun q => some q)) (some x) pos (pos + 1) from by
              simp [npArgmaxAux, hlt], h]
          omega
        · intro k hk
          match k with
          | 0 => simp
          | k + 1 =>
            simp only [List.getD_cons_succ, List.getD_cons_zero]
            exact hmax k (by simpa using hk)
      · right
        refine ⟨u + 1, by simpa using hu, ?_, ?_, ?_, ?_⟩
        · rw [show npArgmaxAux ((x :: xs).map (fun q => some q)) (some c) best pos
            = npArgmaxAux (xs.map (fun q => some q)) (some x) pos (pos + 1) from by
              simp [npArgmaxAux, hlt], h]
          omega
        · simp only [List.getD_cons_succ]
          exact lt_trans hlt hcu
        · intro k hk
          match k with
          | 0 =>
            simp only [List.getD_cons_succ, List.getD_cons_zero]
            exact le_of_lt hcu
          | k + 1 =>
            simp only [List.getD_cons_succ]
            exact hmax k (by simpa using hk)
        · intro k hk
          match k with
          | 0 =>
            simp only [List.getD_cons_succ, List.getD_cons_zero]
            exact hcu
          | k + 1 =>
            simp only [List.getD_cons_succ]
            exact hfirst k (by omega)
    · rcases ih c best (pos + 1) with ⟨h, hmax⟩ | ⟨u, hu, h, hcu, hmax, hfirst⟩
      · left
        refine ⟨?_, ?_⟩
        · rw [show npArgmaxAux ((x :: xs).map (fun q => some q)) (some c) best pos
            = npArgmaxAux (xs.map (fun q => some q)) (some c) best (pos + 1) from by
              simp [npArgmaxAux, hlt], h]
        · intro k hk
          match k with
          | 0 => simpa using not_lt.mp hlt
          | k + 1 =>
            simp only [List.getD_cons_succ]
            exact hmax k (by simpa using hk)
      · right
        refine ⟨u + 1, by simpa using hu, ?_, ?_, ?_, ?_⟩
        · rw [show npArgmaxAux ((x :: xs).map (fun q => some q)) (some c) best pos
            = npArgmaxAux (xs.map (fun q => some q)) (some c) best (pos + 1) from by
              simp [npArgmaxAux, hlt], h]
          omega
        · simp only [List.getD_cons_succ]
          exact hcu
        · intro k hk
          match k with
          | 0 =>
            simp only [List.getD_cons_succ, List.getD_cons_zero]
            exact le_of_lt (lt_of_le_of_lt (not_lt.mp hlt) hcu)
          | k + 1 =>
            simp only [List.getD_cons_succ]
            exact hmax k (by simpa using hk)
        · intro k hk
          match k with
          | 0 =>
            simp only [List.getD_cons_succ, List.getD_cons_zero]
            exact lt_of_le_of_lt (not_lt.mp hlt) hcu
          | k + 1 =>
            simp only [List.getD_cons_succ]
            exact hfirst k (by omega)

theorem npArgmax_firstMax (row : List ℚ) (hne : row ≠ []) :
    npArgmax (row.map (fun q => some q)) < row.length ∧
    (∀ k < row.length,
      row.getD k 0 ≤ row.getD (npArgmax (row.map (fun q => some q))) 0) ∧
    (∀ k < npArgmax (row.map (fun q => some q)),
      row.getD k 0 < row.getD (npArgmax (row.map (fun q => some q))) 0) := by
  match row with
  | x :: xs =>
    have hm : npArgmax ((x :: xs).map (fun q => some q))
        = npArgmaxAux (xs.map (fun q => some q)) (some x) 0 1 := rfl
    rcases npArgmaxAux_max xs x 0 1 with ⟨h, hmax⟩ | ⟨u, hu, h, hcu, hmax, hfirst⟩
    · rw [hm, h]
      refine ⟨by simp, ?_, by intro k hk; omega⟩
      intro k hk
      match k with
      | 0 => simp
      | k + 1 =>
        simp only [List.getD_cons_succ, List.getD_cons_zero]
        exact hmax k (by simpa using hk)
    · have h1u : (1 : Nat) + u = u + 1 := by omega
      rw [hm, h, h1u]
      refine ⟨by simp [Nat.succ_lt_succ_iff, hu], ?_, ?_⟩
      · intro k hk
        match k with
        | 0 =>
          simp only [List.getD_cons_succ, List.getD_cons_zero]
          exact le_of_lt hcu
        | k + 1 =>
          simp only [List.getD_cons_succ]
          exact hmax k (by simpa using hk)
      · intro k hk
        match k with
        | 0 =>
          simp only [List.getD_cons_succ, List.getD_cons_zero]
          exact hcu
        | k + 1 =>
          simp only [List.getD_cons_succ]
          exact hfirst k (by omega)

/-- C10 — confirmed.  On a fitted model, for a vocabulary segment `s` whose
matrix row is real-valued (given as `qrow`) and has its maximum attained by
several tied columns, `predict_next_segment(s)` returns the label of the
lowest column index attaining the row maximum: the returned index `j` attains
the maximum and every column before `j` is strictly smaller. -/
theorem c10_predict_next_ties (m : SegmentJourneyPredictor) (M : List (List FloatQ))
    (hM : m.transition_matrix = some M)
    (s : String) (i : Nat) (hs : idxOfStr s m.segments = some i)
    (qrow : List ℚ) (hrow : M.getD i [] = qrow.map (fun q => some q)) (hne : qrow ≠ [])
    (_htie : ∃ u v, u < v ∧ v < qrow.length ∧ qrow.getD u 0 = qrow.getD v 0 ∧
      ∀ k < qrow.length, qrow.getD k 0 ≤ qrow.getD u 0) :
    ∃ j, m.predict_next_segment s = .ok (m.segments.getD j "") ∧
      j < qrow.length ∧
      (∀ k < qrow.length, qrow.getD k 0 ≤ qrow.getD j 0) ∧
      (∀ k < j, qrow.getD k 0 < qrow.getD j 0) := by
  obtain ⟨hlt, hmax, hfirst⟩ := npArgmax_firstMax qrow hne
  refine ⟨npArgmax (qrow.map (fun q => some q)), ?_, hlt, hmax, hfirst⟩
  have hrow' : M[i]?.getD [] = qrow.map (fun q => some q) := by
    rw [← List.getD_eq_getElem?_getD]
    exact hrow
  simp [SegmentJourneyPredictor.predict_next_segment, hM, hs, hrow']

/-- C10 — witness on the model fitted from `dfTie`, whose A-row
`[0, 1/2, 1/2]` ties columns 1 and 2 at the maximum 1/2: the prediction picks
column 1 ("B"). -/
theorem c10_predict_next_ties_witness :
    ∃ j, (SegmentJourneyPredictor.fit dfTie).1.predict_next_segment "A"
        = .ok ((SegmentJourneyPredictor.fit dfTie).1.segments.getD j "") ∧
      j < ([0, 1/2, 1/2] : List ℚ).length ∧
      (∀ k < ([0, 1/2, 1/2] : List ℚ).length,
        ([0, 1/2, 1/2] : List ℚ).getD k 0 ≤ ([0, 1/2, 1/2] : List ℚ).getD j 0) ∧
      (∀ k < j, ([0, 1/2, 1/2] : List ℚ).getD k 0 < ([0, 1/2, 1/2] : List ℚ).getD j 0) :=
  c10_predict_next_ties (SegmentJourneyPredictor.fit dfTie).1
    [[some 0, some (1/2), some (1/2)], [some 1, some 0, some 0], [none, none, none]]
    (by norm_num [SegmentJourneyPredictor.fit, fitCounts, dedupFS, dedupFSAux, encJourney,
      sortTs, insertTs, addTransitions, adjPairs, adjPairsAux, incr, modifyAt, zeroMatrix,
      labelClasses, sortStr, insertStrLe, idxOfStr, dfTie, List.replicate, normalizeRow])
    "A" 0 rfl [0, 1/2, 1/2] (by norm_num) (List.cons_ne_nil _ _)
    ⟨1, 2, by norm_num, by norm_num, by norm_num [List.getD_cons_succ, List.getD_cons_zero],
      by
        intro k hk
        simp only [List.length_cons, List.length_nil] at hk
        interval_cases k <;> norm_num [List.getD_cons_succ, List.getD_cons_zero]⟩

/-! ### C7: transition counting is strictly per customer -/

theorem length_modifyAt {α : Type} (f : α → α) :
    ∀ (k : Nat) (l : List α), (modifyAt f k l).length = l.length := by
  intro k l
  induction l generalizing k with
  | nil => cases k <;> rfl
  | cons x xs ih =>
    cases k with
    | zero => rfl
    | succ k => simp [modifyAt, ih]

theorem getD_modifyAt {α : Type} (f : α → α) :
    ∀ (l : List α) (k k' : Nat) (d : α),
      (modifyAt f k l).getD k' d
        = if k' = k ∧ k < l.length then f (l.getD k' d) else l.getD k' d := by
  intro l
  induction l with
  | nil =>
    intro k k' d
    cases k <;> simp [modifyAt]
  | cons x xs ih =>
    intro k k' d
    cases k with
    | zero =>
      cases k' with
      | zero => simp [modifyAt]
      | succ k' => simp [modifyAt]
    | succ k =>
      cases k' with
      | zero => simp [modifyAt]
      | succ k' =>
        simp only [modifyAt, List.getD_cons_succ, List.length_cons]
        rw [ih]
        by_cases h1 : k' = k
        · by_cases h2 : k < xs.length <;>
            simp [h1, h2, Nat.succ_lt_succ_iff]
        · simp [h1]

theorem mem_modifyAt {α : Type} (f : α → α) :
    ∀ (k : Nat) (l : List α) (x : α),
      x ∈ modifyAt f k l → x ∈ l ∨ ∃ y ∈ l, x = f y := by
  intro k l
  induction l generalizing k with
  | nil => intro x hx; cases k <;> simp [modifyAt] at hx
  | cons z zs ih =>
    intro x hx
    cases k with
    | zero =>
      rcases List.mem_cons.mp hx with rfl | hx'
      · exact Or.inr ⟨z, by simp, rfl⟩
      · exact Or.inl (List.mem_cons.mpr (Or.inr hx'))
    | succ k =>
      rcases List.mem_cons.mp hx with rfl | hx'
      · exact Or.inl (by simp)
      · rcases ih k x hx' with h | ⟨y, hy, rfl⟩
        · exact Or.inl (List.mem_cons.mpr (Or.inr h))
        · exact Or.inr ⟨y, List.mem_cons.mpr (Or.inr hy), rfl⟩

theorem isMatrix_incr (n : Nat) (M : List (List ℚ)) (a b : Nat)
    (hM : IsMatrix n M) : IsMatrix n (incr M a b) := by
  obtain ⟨hlen, hrows⟩ := hM
  constructor
  · rw [incr, length_modifyAt, hlen]
  · intro row hrow
    rcases mem_modifyAt _ _ _ _ hrow with h | ⟨y, hy, rfl⟩
    · exact hrows row h
    · rw [length_modifyAt]
      exact hrows y hy

theorem entryAt_incr (n : Nat) (M : List (List ℚ)) (hM : IsMatrix n M)
    (a b i j : Nat) (ha : a < n) (hb : b < n) (hi : i < n) (hj : j < n) :
    entryAt (incr M a b) i j
      = entryAt M i j + (if a = i ∧ b = j then 1 else 0) := by
  obtain ⟨hlen, hrows⟩ := hM
  unfold entryAt incr
  rw [getD_modifyAt]
  by_cases hia : i = a
  · subst hia
    rw [if_pos ⟨rfl, by omega⟩, getD_modifyAt]
    by_cases hjb : j = b
    · subst hjb
      have hrowlen : (M.getD i []).length = n :=
        hrows _ (getD_mem_of_lt M i [] (by omega))
      rw [if_pos ⟨rfl, by omega⟩, if_pos ⟨rfl, rfl⟩]
    · rw [if_neg (fun hc => hjb hc.1), if_neg (fun hc => hjb hc.2.symm)]
      ring
  · rw [if_neg (fun hc => hia hc.1), if_neg (fun hc => hia hc.1.symm)]
    ring

theorem entryAt_foldl_incr (n i j : Nat) (hi : i < n) (hj : j < n) :
    ∀ (prs : List (Nat × Nat)) (M : List (List ℚ)), IsMatrix n M →
      (∀ p ∈ prs, p.1 < n ∧ p.2 < n) →
      entryAt (prs.foldl (fun Mc ab => incr Mc ab.1 ab.2) M) i j
          = entryAt M i j
            + ((prs.countP (fun ab => ab.1 == i && ab.2 == j) : Nat) : ℚ) ∧
      IsMatrix n (prs.foldl (fun Mc ab => incr Mc ab.1 ab.2) M) := by
  intro prs
  induction prs with
  | nil =>
    intro M hM _
    constructor
    · simp
    · exact hM
  | cons p prs ih =>
    intro M hM hv
    have hp := hv p (by simp)
    have hM' := isMatrix_incr n M p.1 p.2 hM
    obtain ⟨hent, hmat⟩ := ih (incr M p.1 p.2) hM' (fun q hq => hv q (by simp [hq]))
    refine ⟨?_, hmat⟩
    rw [List.foldl_cons, hent,
      entryAt_incr n M hM p.1 p.2 i j hp.1 hp.2 hi hj, List.countP_cons]
    by_cases hc : p.1 = i ∧ p.2 = j
    · have hcb : (p.1 == i && p.2 == j) = true := by
        simp [hc.1, hc.2]
      rw [hcb, if_pos hc]
      simp only [if_true]
      push_cast
      ring
    · have hcb : (p.1 == i && p.2 == j) = false := by
        rcases not_and_or.mp hc with h | h
        · simp [h]
        · simp [h]
      rw [hcb, if_neg hc]
      simp only [Bool.false_eq_true, if_false]
      push_cast
      ring

theorem adjPairsAux_mem :
    ∀ (a : Nat) (l : List Nat) (p : Nat × Nat),
      p ∈ adjPairsAux a l → (p.1 = a ∨ p.1 ∈ l) ∧ p.2 ∈ l := by
  intro a l
  induction l generalizing a with
  | nil => intro p hp; simp [adjPairsAux] at hp
  | cons b bs ih =>
    intro p hp
    rcases List.mem_cons.mp hp with rfl | hp'
    · exact ⟨Or.inl rfl, by simp⟩
    · obtain ⟨h1, h2⟩ := ih b p hp'
      refine ⟨?_, by simp [h2]⟩
      rcases h1 with rfl | h
      · exact Or.inr (by simp)
      · exact Or.inr (by simp [h])

theorem adjPairs_mem (l : List Nat) (p : Nat × Nat) (hp : p ∈ adjPairs l) :
    p.1 ∈ l ∧ p.2 ∈ l := by
  match l with
  | [] => simp [adjPairs] at hp
  | a :: rest =>
    obtain ⟨h1, h2⟩ := adjPairsAux_mem a rest p hp
    refine ⟨?_, by simp [h2]⟩
    rcases h1 with rfl | h
    · simp
    · simp [h]

theorem mem_insertTs (r : Row) :
    ∀ (l : List Row) (x : Row), x ∈ insertTs r l ↔ x = r ∨ x ∈ l := by
  intro l
  induction l with
  | nil => intro x; simp [insertTs]
  | cons y ys ih =>
    intro x
    by_cases hc : r.timestamp ≤ y.timestamp
    · simp [insertTs, hc]
    · simp only [insertTs, hc, if_false, List.mem_cons, ih]
      tauto

theorem mem_sortTs (l : List Row) (x : Row) : x ∈ sortTs l ↔ x ∈ l := by
  induction l with
  | nil => simp [sortTs]
  | cons y ys ih =>
    simp only [sortTs, List.foldr_cons] at ih ⊢
    rw [mem_insertTs, ih, List.mem_cons]

theorem encJourney_lt (df2 : DataFrame) (c : String) (n : Nat) (hn : 0 < n)
    (henc : ∀ r ∈ df2, ∀ k, r.encoded_segment = some k → k < n) :
    ∀ e ∈ encJourney df2 c, e < n := by
  intro e he
  obtain ⟨r, hr, rfl⟩ := List.mem_map.mp he
  have hr2 : r ∈ df2 := (List.mem_filter.mp ((mem_sortTs _ _).mp hr)).1
  cases hence : r.encoded_segment with
  | none => simpa [hence] using hn
  | some k =>
    simp only [hence, Option.getD_some]
    exact henc r hr2 k hence

theorem isMatrix_zeroMatrix (n : Nat) : IsMatrix n (zeroMatrix n) := by
  constructor
  · simp [zeroMatrix]
  · intro row hrow
    rw [List.eq_of_mem_replicate hrow]
    simp

theorem entryAt_zeroMatrix (n i j : Nat) : entryAt (zeroMatrix n) i j = 0 := by
  unfold entryAt zeroMatrix
  simp only [List.getD_eq_getElem?_getD, List.getElem?_replicate]
  by_cases hi : i < n
  · simp only [if_pos hi, Option.getD_some]
    by_cases hj : j < n
    · simp [hj]
    · simp [hj]
  · simp [hi]

theorem entryAt_addTransitions (n i j : Nat) (hi : i < n) (hj : j < n)
    (l : List Nat) (hl : ∀ e ∈ l, e < n) (M : List (List ℚ)) (hM : IsMatrix n M) :
    entryAt (addTransitions M l) i j
        = entryAt M i j + ((adjPairCount l i j : Nat) : ℚ) ∧
      IsMatrix n (addTransitions M l) := by
  have hv : ∀ p ∈ adjPairs l, p.1 < n ∧ p.2 < n := by
    intro p hp
    obtain ⟨h1, h2⟩ := adjPairs_mem l p hp
    exact ⟨hl _ h1, hl _ h2⟩
  exact entryAt_foldl_incr n i j hi hj (adjPairs l) M hM hv

theorem entryAt_fitCounts (df2 : DataFrame) (n i j : Nat) (hi : i < n) (hj : j < n)
    (henc : ∀ r ∈ df2, ∀ k, r.encoded_segment = some k → k < n) :
    entryAt (fitCounts df2 n) i j
      = (((dedupFS (df2.map (·.customer_id))).map
          (fun c => adjPairCount (encJourney df2 c) i j)).sum : ℚ) := by
  have hgen : ∀ (cs : List String) (M : List (List ℚ)), IsMatrix n M →
      entryAt (cs.foldl (fun Mc c => addTransitions Mc (encJourney df2 c)) M) i j
          = entryAt M i j
            + (((cs.map (fun c => adjPairCount (encJourney df2 c) i j)).sum : Nat) : ℚ) ∧
        IsMatrix n (cs.foldl (fun Mc c => addTransitions Mc (encJourney df2 c)) M) := by
    intro cs
    induction cs with
    | nil =>
      intro M hM
      constructor
      · simp
      · exact hM
    | cons c cs ih =>
      intro M hM
      obtain ⟨hstep, hmat⟩ := entryAt_addTransitions n i j hi hj (encJourney df2 c)
        (encJourney_lt df2 c n (by omega) henc) M hM
      obtain ⟨hrest, hmat'⟩ := ih _ hmat
      refine ⟨?_, hmat'⟩
      rw [List.foldl_cons, hrest, hstep, List.map_cons, List.sum_cons]
      push_cast
      ring
  have := (hgen (dedupFS (df2.map (·.customer_id))) (zeroMatrix n)
    (isMatrix_zeroMatrix n)).1
  rw [fitCounts, this, entryAt_zeroMatrix]
  ring

/-- C7 — confirmed.  The entry `(i, j)` of the count matrix built by `fit`
equals the sum, over the distinct customers, of the number of adjacent
`(i, j)` pairs in that customer's timestamp-sorted encoded journey: each
adjacent pair of one customer's sorted records contributes exactly one count,
and no count ever combines records of two different customers. -/
theorem c7_per_customer_counting (df : DataFrame) (i j : Nat)
    (hi : i < (labelClasses (df.map (·.segment))).length)
    (hj : j < (labelClasses (df.map (·.segment))).length) :
    entryAt (fitCounts (SegmentJourneyPredictor.fit df).2
        (labelClasses (df.map (·.segment))).length) i j
      = (((dedupFS ((SegmentJourneyPredictor.fit df).2.map (·.customer_id))).map
          (fun c =>
            adjPairCount (encJourney (SegmentJourneyPredictor.fit df).2 c) i j)).sum
          : ℚ) := by
  apply entryAt_fitCounts _ _ i j hi hj
  intro r hr k hk
  obtain ⟨r0, _, rfl⟩ := List.mem_map.mp hr
  simp only at hk
  exact idxOfStr_lt_length hk

/-- C7 — witness: the A→B log has one customer and exactly one A→B adjacent
pair, so entry (0, 1) of its count matrix is that customer's pair count. -/
theorem c7_per_customer_counting_witness :
    entryAt (fitCounts (SegmentJourneyPredictor.fit dfAB).2
        (labelClasses (dfAB.map (·.segment))).length) 0 1
      = (((dedupFS ((SegmentJourneyPredictor.fit dfAB).2.map (·.customer_id))).map
          (fun c =>
            adjPairCount (encJourney (SegmentJourneyPredictor.fit dfAB).2 c) 0 1)).sum
          : ℚ) :=
  c7_per_customer_counting dfAB 0 1 (by decide) (by decide)

/-! ### C5: beam-search guarantees — IEEE comparison lemmas -/

theorem pyLtP_le (x y : FloatQ) (h : pyLtP x y) : pyLeP x y := by
  match x, y with
  | some a, some b => exact le_of_lt h
  | some _, none => exact h.elim
  | none, some _ => exact h.elim
  | none, none => exact h.elim

theorem pyLeP_of_not_lt (x y : FloatQ) (hx : x ≠ none) (hy : y ≠ none)
    (h : ¬ pyLtP x y) : pyLeP y x := by
  match x, y with
  | some a, some b => exact not_lt.mp h
  | some _, none => exact absurd rfl hy
  | none, _ => exact absurd rfl hx

theorem pyMul_ne_none (x y : FloatQ) (hx : x ≠ none) (hy : y ≠ none) :
    pyMul x y ≠ none := by
  match x, y with
  | some a, some b => simp [pyMul]
  | none, _ => exact absurd rfl hx
  | some _, none => exact absurd rfl hy

/-! ### C5: the descending stable sort -/

theorem mem_insertDesc (x : IdxPath) :
    ∀ (l : List IdxPath) (a : IdxPath), a ∈ insertDesc x l ↔ a = x ∨ a ∈ l := by
  intro l
  induction l with
  | nil => intro a; simp [insertDesc]
  | cons y ys ih =>
    intro a
    by_cases hc : pyLtP x.2 y.2
    · simp only [insertDesc, if_pos hc, List.mem_cons, ih]
      tauto
    · simp only [insertDesc, if_neg hc, List.mem_cons]

theorem mem_sortDesc (l : List IdxPath) (a : IdxPath) : a ∈ sortDesc l ↔ a ∈ l := by
  induction l with
  | nil => simp [sortDesc]
  | cons y ys ih =>
    simp only [sortDesc, List.foldr_cons] at ih ⊢
    rw [mem_insertDesc, ih, List.mem_cons]

theorem insertDesc_head (x : IdxPath) :
    ∀ (l : List IdxPath),
      (insertDesc x l).head? = some x ∨ (insertDesc x l).head? = l.head? := by
  intro l
  match l with
  | [] => left; rfl
  | y :: ys =>
    by_cases hc : pyLtP x.2 y.2
    · right; simp [insertDesc, hc]
    · left; simp [insertDesc, hc]

theorem chain'_insertDesc (x : IdxPath) :
    ∀ (l : List IdxPath), x.2 ≠ none → (∀ y ∈ l, y.2 ≠ none) →
      List.Chain' (fun a b => pyLeP b.2 a.2) l →
      List.Chain' (fun a b => pyLeP b.2 a.2) (insertDesc x l) := by
  intro l
  induction l with
  | nil =>
    intro _ _ _
    simp [insertDesc]
  | cons y ys ih =>
    intro hx hl hch
    by_cases hc : pyLtP x.2 y.2
    · simp only [insertDesc, if_pos hc]
      rw [List.chain'_cons']
      constructor
      · intro z hz
        rcases insertDesc_head x ys with hh | hh
        · rw [hh] at hz
          simp only [Option.mem_def, Option.some.injEq] at hz
          subst hz
          exact pyLtP_le _ _ hc
        · rw [hh] at hz
          exact (List.chain'_cons'.mp hch).1 z hz
      · exact ih hx (fun z hz => hl z (by simp [hz])) (List.chain'_cons'.mp hch).2
    · simp only [insertDesc, if_neg hc]
      rw [List.chain'_cons']
      constructor
      · intro z hz
        simp only [List.head?_cons, Option.mem_def, Option.some.injEq] at hz
        subst hz
        exact pyLeP_of_not_lt _ _ hx (hl y (by simp)) hc
      · exact hch

theorem chain'_sortDesc (l : List IdxPath) (hl : ∀ y ∈ l, y.2 ≠ none) :
    List.Chain' (fun a b => pyLeP b.2 a.2) (sortDesc l) := by
  induction l with
  | nil => simp [sortDesc]
  | cons y ys ih =>
    simp only [sortDesc, List.foldr_cons]
    refine chain'_insertDesc y _ (hl y (by simp)) ?_ ?_
    · intro z hz
      exact hl z (by simp [(mem_sortDesc ys z).mp hz])
    · exact ih (fun z hz => hl z (by simp [hz]))

/-! ### C5: the Python slice -/

theorem pySliceTo_subset {α : Type} (l : List α) (k : Int) :
    ∀ x ∈ pySliceTo l k, x ∈ l := by
  intro x hx
  unfold pySliceTo at hx
  by_cases h : 0 ≤ k
  · rw [if_pos h] at hx
    exact List.take_subset _ _ hx
  · rw [if_neg h] at hx
    exact List.take_subset _ _ hx

theorem pySliceTo_chain' {α : Type} {R : α → α → Prop} (l : List α) (k : Int)
    (h : List.Chain' R l) : List.Chain' R (pySliceTo l k) := by
  unfold pySliceTo
  by_cases hk : 0 ≤ k
  · rw [if_pos hk]
    exact h.take _
  · rw [if_neg hk]
    exact h.take _

theorem pySliceTo_length_le {α : Type} (l : List α) (k : Int) (hk : 0 ≤ k) :
    ((pySliceTo l k).length : Int) ≤ k := by
  unfold pySliceTo
  rw [if_pos hk]
  have h1 : (l.take k.toNat).length ≤ k.toNat := by
    simp [List.length_take]
  omega

/-! ### C5: enumeration and path probabilities -/

theorem enumList_mem :
    ∀ (row : List FloatQ) (k : Nat) (j : Nat) (t : FloatQ),
      (j, t) ∈ enumList row k →
        ∃ off, off < row.length ∧ j = k + off ∧ row.getD off none = t := by
  intro row
  induction row with
  | nil => intro k j t h; simp [enumList] at h
  | cons x xs ih =>
    intro k j t h
    rcases List.mem_cons.mp h with heq | h'
    · obtain ⟨h1, h2⟩ := Prod.mk.injEq _ _ _ _ ▸ heq
      exact ⟨0, by simp, by omega, by simp [h2]⟩
    · obtain ⟨off, ho, hj, hg⟩ := ih (k + 1) j t h'
      exact ⟨off + 1, by simpa using ho, by omega, by simpa using hg⟩

theorem mem_getD_matrix (M : List (List FloatQ)) (a : Nat) (x : FloatQ)
    (hx : x ∈ M.getD a []) : ∃ row ∈ M, x ∈ row := by
  by_cases ha : a < M.length
  · exact ⟨M.getD a [], getD_mem_of_lt M a [] ha, hx⟩
  · rw [getD_eq_nil_of_le M a [] (by omega)] at hx
    simp at hx

theorem adjPairsAux_append (j : Nat) :
    ∀ (a : Nat) (l : List Nat),
      adjPairsAux a (l ++ [j]) = adjPairsAux a l ++ [((a :: l).getLast?.getD 0, j)] := by
  intro a l
  induction l generalizing a with
  | nil => simp [adjPairsAux]
  | cons b bs ih =>
    have h1 : adjPairsAux a ((b :: bs) ++ [j]) = (a, b) :: adjPairsAux b (bs ++ [j]) := rfl
    rw [h1, ih b, List.getLast?_cons_cons]
    rfl

theorem adjPairs_append (p : List Nat) (hp : p ≠ []) (j : Nat) :
    adjPairs (p ++ [j]) = adjPairs p ++ [(p.getLast?.getD 0, j)] := by
  match p with
  | a :: l =>
    simp only [List.cons_append, adjPairs]
    exact adjPairsAux_append j a l

theorem pathProbOpt_append (M : List (List FloatQ)) (p : List Nat) (hp : p ≠ []) (j : Nat) :
    pathProbOpt M (p ++ [j])
      = pyMul (pathProbOpt M p) (lookupProb M (p.getLast?.getD 0) j) := by
  unfold pathProbOpt
  rw [adjPairs_append p hp j, List.foldl_append]
  simp

/-! ### C5: the beam invariant -/

theorem expandOne_inv (M : List (List FloatQ))
    (hreal : ∀ row ∈ M, ∀ x ∈ row, x ≠ none) (k : Nat) (pp : IdxPath)
    (hpp : pp.1 ≠ [] ∧ pp.1.length = k + 1 ∧ pp.2 = pathProbOpt M pp.1 ∧ pp.2 ≠ none) :
    ∀ ch ∈ expandOne M pp,
      ch.1 ≠ [] ∧ ch.1.length = k + 2 ∧ ch.2 = pathProbOpt M ch.1 ∧ ch.2 ≠ none := by
  obtain ⟨hne, hlen, hprob, hsome⟩ := hpp
  intro ch hch
  unfold expandOne at hch
  obtain ⟨jt, hjt, rfl⟩ := List.mem_map.mp hch
  obtain ⟨off, hoff, hjoff, hgd⟩ := enumList_mem _ 0 jt.1 jt.2 hjt
  have hj : jt.1 = off := by omega
  have htmem : jt.2 ∈ M.getD (pp.1.getLast?.getD 0) [] :=
    hgd ▸ getD_mem_of_lt _ off none hoff
  obtain ⟨row, hrowM, htrow⟩ := mem_getD_matrix M _ jt.2 htmem
  have htsome : jt.2 ≠ none := hreal row hrowM _ htrow
  refine ⟨by simp, by simp [hlen], ?_, pyMul_ne_none _ _ hsome htsome⟩
  rw [pathProbOpt_append M pp.1 hne jt.1, ← hprob]
  rw [lookupProb, hj, hgd]

theorem beamStep_inv (M : List (List FloatQ))
    (hreal : ∀ row ∈ M, ∀ x ∈ row, x ≠ none) (k : Nat) (top_k : Int)
    (ps : List IdxPath) (hps : BeamInv M k ps) :
    BeamInv M (k + 1) (beamStep M top_k ps) := by
  intro pp hpp
  have h1 : pp ∈ sortDesc (ps.flatMap (expandOne M)) := pySliceTo_subset _ _ pp hpp
  have h2 : pp ∈ ps.flatMap (expandOne M) := (mem_sortDesc _ _).mp h1
  obtain ⟨par, hpar, hch⟩ := List.mem_flatMap.mp h2
  exact expandOne_inv M hreal k par (hps par hpar) pp hch

theorem expand_all_some (M : List (List FloatQ))
    (hreal : ∀ row ∈ M, ∀ x ∈ row, x ≠ none) (k : Nat)
    (ps : List IdxPath) (hps : BeamInv M k ps) :
    ∀ y ∈ ps.flatMap (expandOne M), y.2 ≠ none := by
  intro y hy
  obtain ⟨par, hpar, hch⟩ := List.mem_flatMap.mp hy
  exact (expandOne_inv M hreal k par (hps par hpar) y hch).2.2.2

theorem beamStep_sorted (M : List (List FloatQ))
    (hreal : ∀ row ∈ M, ∀ x ∈ row, x ≠ none) (k : Nat) (top_k : Int)
    (ps : List IdxPath) (hps : BeamInv M k ps) :
    List.Chain' (fun (a b : IdxPath) => pyLeP b.2 a.2) (beamStep M top_k ps) := by
  unfold beamStep
  apply pySliceTo_chain'
  exact chain'_sortDesc _ (expand_all_some M hreal k ps hps)

theorem beamInit_inv (M : List (List FloatQ)) (i : Nat) :
    BeamInv M 0 [([i], some 1)] := by
  intro pp hpp
  simp only [List.mem_singleton] at hpp
  subst hpp
  exact ⟨by simp, by simp, rfl, by simp⟩

theorem foldl_beam_inv (M : List (List FloatQ))
    (hreal : ∀ row ∈ M, ∀ x ∈ row, x ≠ none) (top_k : Int) :
    ∀ (n : Nat) (ps : List IdxPath) (k : Nat), BeamInv M k ps →
      BeamInv M (k + n) ((List.range n).foldl (fun a _ => beamStep M top_k a) ps) := by
  intro n
  induction n with
  | zero => intro ps k h; simpa using h
  | succ t ih =>
    intro ps k h
    rw [List.range_succ, List.foldl_append]
    simp only [List.foldl_cons, List.foldl_nil]
    exact beamStep_inv M hreal (k + t) top_k _ (ih ps k h)

/-- C5 — amended claim, proved: on a fitted model whose transition matrix
contains no NaN entries (every vocabulary segment has at least one observed
outbound transition), for every vocabulary start segment, `steps >= 0` and
`top_k >= 1`, the beam search returns at most `top_k` paths, every returned
path has exactly `steps + 1` segments, the returned probabilities are
non-increasing, and every returned probability is exactly the product of the
transition-matrix entries along its path's consecutive edges (exhibited by an
index sequence realizing the label path). -/
theorem c5_amended (m : SegmentJourneyPredictor) (M : List (List FloatQ))
    (hM : m.transition_matrix = some M)
    (hreal : ∀ row ∈ M, ∀ x ∈ row, x ≠ none)
    (s : String) (i : Nat) (hs : idxOfStr s m.segments = some i)
    (steps top_k : Int) (_hsteps : 0 ≤ steps) (htk : 1 ≤ top_k) :
    ∃ r, m.most_likely_paths s steps top_k = .ok r ∧
      (r.length : Int) ≤ top_k ∧
      (∀ pp ∈ r, pp.1.length = steps.toNat + 1) ∧
      probsSortedDesc (r.map (·.2)) ∧
      (∀ pp ∈ r, ∃ q : List Nat, pp.1 = q.map (fun j => m.segments.getD j "") ∧
        pp.2 = pathProbOpt M q ∧ q.length = steps.toNat + 1) := by
  have hinv : BeamInv M steps.toNat
      ((List.range steps.toNat).foldl (fun ps _ => beamStep M top_k ps) [([i], some 1)]) := by
    have h := foldl_beam_inv M hreal top_k steps.toNat [([i], some 1)] 0 (beamInit_inv M i)
    simpa using h
  have hok : m.most_likely_paths s steps top_k
      = .ok (((List.range steps.toNat).foldl (fun ps _ => beamStep M top_k ps)
          [([i], some 1)]).map
            (fun pp => (pp.1.map (fun j => m.segments.getD j ""), pp.2))) := by
    simp only [SegmentJourneyPredictor.most_likely_paths, hM, hs]
  have hsort : List.Chain' (fun (a b : IdxPath) => pyLeP b.2 a.2)
      ((List.range steps.toNat).foldl (fun ps _ => beamStep M top_k ps) [([i], some 1)]) := by
    rcases Nat.eq_zero_or_pos steps.toNat with h0 | hpos
    · rw [h0]
      simp
    · obtain ⟨t, ht⟩ : ∃ t, steps.toNat = t + 1 := ⟨steps.toNat - 1, by omega⟩
      rw [ht, List.range_succ, List.foldl_append]
      simp only [List.foldl_cons, List.foldl_nil]
      refine beamStep_sorted M hreal t top_k _ ?_
      have h := foldl_beam_inv M hreal top_k t [([i], some 1)] 0 (beamInit_inv M i)
      simpa using h
  have hlen : (((List.range steps.toNat).foldl (fun ps _ => beamStep M top_k ps)
      [([i], some 1)]).length : Int) ≤ top_k := by
    rcases Nat.eq_zero_or_pos steps.toNat with h0 | hpos
    · rw [h0]
      simpa using htk
    · obtain ⟨t, ht⟩ : ∃ t, steps.toNat = t + 1 := ⟨steps.toNat - 1, by omega⟩
      rw [ht, List.range_succ, List.foldl_append]
      simp only [List.foldl_cons, List.foldl_nil]
      exact pySliceTo_length_le _ top_k (by omega)
  refine ⟨_, hok, ?_, ?_, ?_, ?_⟩
  · simpa using hlen
  · intro pp hpp
    obtain ⟨q, hq, rfl⟩ := List.mem_map.mp hpp
    simpa using (hinv q hq).2.1
  · have hmm : (((List.range steps.toNat).foldl (fun ps _ => beamStep M top_k ps)
        [([i], some 1)]).map
          (fun pp => (pp.1.map (fun j => m.segments.getD j ""), pp.2))).map (·.2)
        = ((List.range steps.toNat).foldl (fun ps _ => beamStep M top_k ps)
            [([i], some 1)]).map (·.2) := by
      simp [List.map_map]
    rw [probsSortedDesc, hmm, List.chain'_map]
    exact hsort
  · intro pp hpp
    obtain ⟨q, hq, rfl⟩ := List.mem_map.mp hpp
    exact ⟨q.1, rfl, (hinv q hq).2.2.1, (hinv q hq).2.1⟩

/-- C5 — witness instantiating `c5_amended` on the NaN-free model fitted from
the A→B→A log, start "A", two steps, beam width 2. -/
theorem c5_amended_witness :
    ∃ r, (SegmentJourneyPredictor.fit dfABA).1.most_likely_paths "A" 2 2 = .ok r ∧
      (r.length : Int) ≤ 2 ∧
      (∀ pp ∈ r, pp.1.length = (2 : Int).toNat + 1) ∧
      probsSortedDesc (r.map (·.2)) ∧
      (∀ pp ∈ r, ∃ q : List Nat,
        pp.1 = q.map (fun j => (SegmentJourneyPredictor.fit dfABA).1.segments.getD j "") ∧
        pp.2 = pathProbOpt [[some 0, some 1], [some 1, some 0]] q ∧
        q.length = (2 : Int).toNat + 1) :=
  c5_amended (SegmentJourneyPredictor.fit dfABA).1 [[some 0, some 1], [some 1, some 0]]
    (by norm_num [SegmentJourneyPredictor.fit, fitCounts, dedupFS, dedupFSAux, encJourney,
      sortTs, insertTs, addTransitions, adjPairs, adjPairsAux, incr, modifyAt, zeroMatrix,
      labelClasses, sortStr, insertStrLe, idxOfStr, dfABA, List.replicate, normalizeRow])
    (by decide) "A" 0 rfl 2 2 (by decide) (by decide)

/-- C5 — counterexample.  On the model fitted from the A→B log, segment B's
matrix row is all-NaN; the beam search from "A" with two steps and width 4
returns four paths whose probabilities are `[NaN, NaN, 0.0, 0.0]`, and a list
holding a NaN among several entries is not non-increasing under IEEE
comparison (NaN ≤ x and x ≤ NaN are both false), so the claim's sortedness
guarantee fails as stated for this fitted model.  (The failure does not
depend on how the sort orders the NaN entries: any arrangement of two NaNs
and two reals has some adjacent pair involving a NaN.) -/
theorem c5_counterexample :
    (SegmentJourneyPredictor.fit dfAB).1.most_likely_paths "A" 2 4
        = .ok [(["A", "B", "A"], none), (["A", "B", "B"], none),
               (["A", "A", "A"], some 0), (["A", "A", "B"], some 0)] ∧
      ¬ probsSortedDesc [none, none, some 0, some 0] := by
  constructor
  · have h1 : (SegmentJourneyPredictor.fit dfAB).1.transition_matrix
        = some [[some 0, some 1], [none, none]] := by
      norm_num [SegmentJourneyPredictor.fit, fitCounts, dedupFS, dedupFSAux, encJourney,
        sortTs, insertTs, addTransitions, adjPairs, adjPairsAux, incr, modifyAt, zeroMatrix,
        labelClasses, sortStr, insertStrLe, idxOfStr, dfAB, List.replicate, normalizeRow]
    have h2 : (SegmentJourneyPredictor.fit dfAB).1.segments = ["A", "B"] := rfl
    simp only [SegmentJourneyPredictor.most_likely_paths, h1, h2]
    rw [show idxOfStr "A" ["A", "B"] = some 0 from rfl,
      show List.range ((2 : Int).toNat) = [0, 1] from rfl]
    simp only [List.foldl_cons, List.foldl_nil]
    norm_num [beamStep, expandOne, enumList, sortDesc, insertDesc, pySliceTo, pyMul, pyLtP,
      idxOfStr, show Int.toNat 4 = 4 from rfl]
  · intro h
    exact (List.chain'_cons.mp h).1

end CJO
